import Mathlib

/-!
# Verification of the mcp-helm repository/version-resolution and image-extraction layers

Shallow embedding of the Go code in `lib/helm_parser/images.go`,
`lib/helm_parser/parser.go` and `lib/helm_client/client.go`.

Modelling conventions:
* Go strings are modelled as Lean `String` (a packed `List Char`); the byte
  indices produced by `strings.Index`/`strings.LastIndex` coincide with
  character indices for the ASCII separators (`'@'`, `':'`, `'/'`, `'-'`)
  the code searches for, so index arithmetic is done on characters.
* Go's `-1` "not found" sentinel for `strings.Index`/`strings.LastIndex`
  is modelled as `Option Nat`.
* External collaborators (the YAML parser `gopkg.in/yaml.v2`, the JSON
  serializer `encoding/json`, the Helm registry tag-lister, the repository
  index downloader) are passed in as parameters; the embedded functions
  quantify over them.
* Fallible Go functions returning `(T, error)` are modelled as
  `Except String T`.  A Go nil-vs-empty slice distinction that a claim
  depends on is modelled as `Option (List _)` (`none` = Go `nil` slice).
-/

namespace McpHelm

/-! ## Go string primitives -/

/-- First index of character `c` in `l` (`strings.Index(s, c)` for a
one-character needle); `none` is Go's `-1`. -/
def charIdx : List Char → Char → Option Nat
  | [], _ => none
  | a :: rest, c => if a = c then some 0 else (charIdx rest c).map (· + 1)

/-- Last index of character `c` in `l` (`strings.LastIndex(s, c)` for a
one-character needle); `none` is Go's `-1`. -/
def charLastIdx : List Char → Char → Option Nat
  | [], _ => none
  | a :: rest, c =>
    match charLastIdx rest c with
    | some i => some (i + 1)
    | none => if a = c then some 0 else none

/-- Embeds `strings.Split(s, sep)` for a one-character separator: split on
every occurrence of `c`. -/
def splitChar : List Char → Char → List (List Char)
  | [], _ => [[]]
  | a :: rest, c =>
    match splitChar rest c with
    | [] => [[]]
    | p :: ps => if a = c then [] :: p :: ps else (a :: p) :: ps

/-- Go slice `s[:n]` (character-based, see module docstring). -/
def goTake (s : String) (n : Nat) : String := String.mk (s.toList.take n)

/-- Go slice `s[n:]` (character-based, see module docstring). -/
def goDrop (s : String) (n : Nat) : String := String.mk (s.toList.drop n)

/-- Embeds `strings.Contains(s, sub)`: `sub` occurs as a substring. -/
def goContains (s sub : String) : Bool := decide (sub.toList <:+: s.toList)

/-- Embeds `strings.HasPrefix`. -/
def goHasPrefix (s pre : String) : Bool := pre.toList.isPrefixOf s.toList

/-- Embeds `strings.HasSuffix`. -/
def goHasSuffix (s suf : String) : Bool := suf.toList.isSuffixOf s.toList

/-- Embeds `strings.TrimPrefix`. -/
def goTrimPrefix (s pre : String) : String :=
  if goHasPrefix s pre then goDrop s pre.length else s

/-- Embeds `strings.TrimSuffix`. -/
def goTrimSuffix (s suf : String) : String :=
  if goHasSuffix s suf then goTake s (s.length - suf.length) else s

/-- Embeds `strings.Split(s, c)` on strings, one-character separator. -/
def goSplitChar (s : String) (c : Char) : List String :=
  (splitChar s.toList c).map String.mk

/-- First index at which `pat` occurs in `l` (`strings.Index` for an
arbitrary needle). -/
def firstIdxSub : List Char → List Char → Option Nat
  | l, pat =>
    if pat.isPrefixOf l then some 0
    else
      match l with
      | [] => none
      | _ :: rest => (firstIdxSub rest pat).map (· + 1)

theorem firstIdxSub_isPrefixOf {l pat : List Char} {i : Nat}
    (h : firstIdxSub l pat = some i) : pat.isPrefixOf (l.drop i) := by
  induction l generalizing i with
  | nil =>
    unfold firstIdxSub at h
    split at h
    · simp_all
    · simp at h
  | cons a rest ih =>
    unfold firstIdxSub at h
    split at h
    · rename_i hp
      simp at h
      subst h
      simpa using hp
    · simp only [Option.map_eq_some'] at h
      obtain ⟨j, hj, hji⟩ := h
      subst hji
      simpa using ih hj

theorem firstIdxSub_length_bound {l pat : List Char} {i : Nat}
    (h : firstIdxSub l pat = some i) : pat.length ≤ l.length - i := by
  have hp := firstIdxSub_isPrefixOf h
  have := List.IsPrefix.length_le (List.isPrefixOf_iff_prefix.mp hp)
  simpa using this

/-- Embeds `strings.Split(s, sep)` for a general separator: with an
empty separator the string explodes into its characters, otherwise split
around every (leftmost, non-overlapping) occurrence of `sep`. -/
def splitSubGo (hay pat : List Char) : List (List Char) :=
  if hpat : pat = [] then hay.map (fun c => [c])
  else
    match hidx : firstIdxSub hay pat with
    | none => [hay]
    | some i => hay.take i :: splitSubGo (hay.drop (i + pat.length)) pat
termination_by hay.length
decreasing_by
  have hle := firstIdxSub_length_bound hidx
  have hpos : 0 < pat.length := List.length_pos.mpr hpat
  simp only [List.length_drop]
  omega

/-- Embeds `strings.Split` on strings. -/
def goSplitStr (s sep : String) : List String :=
  (splitSubGo s.toList sep.toList).map String.mk

/-- Embeds `strings.TrimSpace` (ASCII whitespace suffices here). -/
def goTrimSpace (s : String) : String :=
  String.mk (((s.toList.dropWhile Char.isWhitespace).reverse.dropWhile
    Char.isWhitespace).reverse)

/-! ### Lemmas about the primitives -/

theorem mk_toList (s : String) : String.mk s.toList = s := rfl

theorem goTake_toList (s : String) (n : Nat) :
    (goTake s n).toList = s.toList.take n := rfl

theorem goDrop_toList (s : String) (n : Nat) :
    (goDrop s n).toList = s.toList.drop n := rfl

theorem charIdx_eq_none_iff {l : List Char} {c : Char} :
    charIdx l c = none ↔ c ∉ l := by
  induction l with
  | nil => simp [charIdx]
  | cons a rest ih =>
    unfold charIdx
    by_cases h : a = c
    · subst h; simp
    · simp only [if_neg h, Option.map_eq_none', List.mem_cons]
      constructor
      · intro hn hm
        rcases hm with hm | hm
        · exact h hm.symm
        · exact ih.mp hn hm
      · intro hm
        exact ih.mpr (fun hmem => hm (Or.inr hmem))

theorem charIdx_not_mem_take {l : List Char} {c : Char} {i : Nat}
    (h : charIdx l c = some i) : c ∉ l.take i := by
  induction l generalizing i with
  | nil => simp [charIdx] at h
  | cons a rest ih =>
    unfold charIdx at h
    by_cases ha : a = c
    · simp only [if_pos ha] at h
      simp at h
      subst h
      simp
    · simp only [if_neg ha, Option.map_eq_some'] at h
      obtain ⟨j, hj, hji⟩ := h
      subst hji
      simp only [List.take_succ_cons, List.mem_cons]
      intro hmem
      rcases hmem with hmem | hmem
      · exact ha hmem.symm
      · exact ih hj hmem

theorem splitChar_ne_nil (l : List Char) (c : Char) : splitChar l c ≠ [] := by
  cases l with
  | nil => simp [splitChar]
  | cons a rest =>
    unfold splitChar
    split
    · simp
    · split <;> simp

theorem splitChar_not_mem {l : List Char} {c : Char} :
    ∀ p ∈ splitChar l c, c ∉ p := by
  induction l with
  | nil => simp [splitChar]
  | cons a rest ih =>
    intro q hq
    unfold splitChar at hq
    cases hs : splitChar rest c with
    | nil =>
      rw [hs] at hq
      simp at hq
      subst hq
      simp
    | cons p ps =>
      rw [hs] at hq
      dsimp only at hq
      have hp : c ∉ p := ih p (by rw [hs]; exact List.mem_cons_self p ps)
      by_cases ha : a = c
      · rw [if_pos ha] at hq
        rcases List.mem_cons.mp hq with h1 | hq2
        · subst h1; simp
        · exact ih q (by rw [hs]; exact hq2)
      · rw [if_neg ha] at hq
        rcases List.mem_cons.mp hq with h1 | hq2
        · subst h1
          intro hmem
          rcases List.mem_cons.mp hmem with h2 | h2
          · exact ha h2.symm
          · exact hp h2
        · exact ih q (by rw [hs]; exact List.mem_cons_of_mem p hq2)

theorem splitChar_of_not_mem {l : List Char} {c : Char} (h : c ∉ l) :
    splitChar l c = [l] := by
  induction l with
  | nil => rfl
  | cons a rest ih =>
    simp only [List.mem_cons, not_or] at h
    unfold splitChar
    rw [ih h.2]
    simp [Ne.symm h.1]

theorem goContains_iff {s sub : String} :
    goContains s sub = true ↔ sub.toList <:+: s.toList := by
  unfold goContains
  exact decide_eq_true_iff

theorem goContains_single_iff {s : String} {c : Char} :
    goContains s (String.mk [c]) = true ↔ c ∈ s.toList := by
  rw [goContains_iff]
  constructor
  · intro h
    exact h.subset (by simp)
  · intro h
    obtain ⟨l₁, l₂, hl⟩ := List.append_of_mem h
    exact ⟨l₁, l₂, by simpa using hl.symm⟩

theorem goContains_slash_false_iff {s : String} :
    goContains s "/" = false ↔ '/' ∉ s.toList := by
  have : "/" = String.mk ['/'] := rfl
  rw [this, ← Bool.not_eq_true, goContains_single_iff]

/-! ## Image reference normalizer (`lib/helm_parser/images.go:15-76`) -/

/-- Embeds the `ImageReference` struct (images.go:15-22). -/
structure ImageReference where
  registry : String := ""
  repository : String := ""
  tag : String := ""
  digest : String := ""
  fullImage : String := ""
  source : String := ""
deriving DecidableEq, Repr

/-- Embeds `parseImage` (images.go:24-76).  Step order follows the Go code:
digest split at the last `'@'`, tag split at the last `':'` (only when the
suffix holds no `'/'`), then the registry/repository split on `'/'`. -/
def parseImage (image : String) : ImageReference :=
  let ref : ImageReference := { fullImage := image, tag := "latest" }
  if image = "" then ref
  else
    let step1 : ImageReference × String :=
      match charLastIdx image.toList '@' with
      | some idx => ({ ref with digest := goDrop image (idx + 1), tag := "" },
                     goTake image idx)
      | none => (ref, image)
    let step2 : ImageReference × String :=
      match charLastIdx step1.2.toList ':' with
      | some idx =>
        let afterColon := goDrop step1.2 (idx + 1)
        if goContains afterColon "/" then (step1.1, step1.2)
        else ({ step1.1 with tag := afterColon }, goTake step1.2 idx)
      | none => (step1.1, step1.2)
    match goSplitChar step2.2 '/' with
    | [p0] => { step2.1 with registry := "docker.io", repository := "library/" ++ p0 }
    | [p0, p1] =>
      if goContains p0 "." || goContains p0 ":" then
        { step2.1 with registry := p0, repository := p1 }
      else
        { step2.1 with registry := "docker.io", repository := step2.2 }
    | p0 :: restParts => { step2.1 with registry := p0, repository := String.intercalate "/" restParts }
    | [] => step2.1

/-- Spec §4.1/§8: the image with its digest suffix (everything from the last
`'@'`) and then its tag suffix (everything from the last `':'`, when that
suffix holds no `'/'`) removed. -/
def imageWithoutTagOrDigest (image : String) : String :=
  let w1 : String :=
    match charLastIdx image.toList '@' with
    | some idx => goTake image idx
    | none => image
  match charLastIdx w1.toList ':' with
  | some idx =>
    if goContains (goDrop w1 (idx + 1)) "/" then w1 else goTake w1 idx
  | none => w1

theorem not_mem_goTake {s : String} {c : Char} (h : c ∉ s.toList) (n : Nat) :
    c ∉ (goTake s n).toList := by
  rw [goTake_toList]
  intro hmem
  exact h (List.take_subset n s.toList hmem)

theorem not_mem_goDrop {s : String} {c : Char} (h : c ∉ s.toList) (n : Nat) :
    c ∉ (goDrop s n).toList := by
  rw [goDrop_toList]
  intro hmem
  exact h (List.drop_subset n s.toList hmem)

/-- For a slash-free working image the final path split returns a single
segment, so the `case 1` branch of the switch runs. -/
theorem goSplitChar_no_slash {s : String} (h : '/' ∉ s.toList) :
    goSplitChar s '/' = [s] := by
  unfold goSplitChar
  rw [splitChar_of_not_mem h]
  simp [mk_toList]

/-- C1: a non-empty slash-free image normalizes to registry `docker.io` and
repository `library/` + the image stripped of its tag/digest suffix; and the
two spec examples evaluate as claimed (images.go:24-76). -/
theorem parseImage_c1 (image : String) (h1 : image ≠ "")
    (h2 : goContains image "/" = false) :
    (parseImage image).registry = "docker.io" ∧
    (parseImage image).repository = "library/" ++ imageWithoutTagOrDigest image ∧
    parseImage "gcr.io/project/image@sha256:abc123" =
      { registry := "gcr.io", repository := "project/image", tag := "",
        digest := "sha256:abc123",
        fullImage := "gcr.io/project/image@sha256:abc123", source := "" } ∧
    parseImage "registry.example.com:5000/app:v1" =
      { registry := "registry.example.com:5000", repository := "app",
        tag := "v1", digest := "",
        fullImage := "registry.example.com:5000/app:v1", source := "" } := by
  have hs : '/' ∉ image.toList := goContains_slash_false_iff.mp h2
  refine ⟨?_, ?_, by decide, by decide⟩ <;>
  · cases hat : charLastIdx image.data '@' with
    | none =>
      cases hcol : charLastIdx image.data ':' with
      | none =>
        simp [parseImage, imageWithoutTagOrDigest, String.toList, if_neg h1,
          hat, hcol, goSplitChar_no_slash hs]
      | some idx =>
        have hna : goContains (goDrop image (idx + 1)) "/" = false :=
          goContains_slash_false_iff.mpr (not_mem_goDrop hs (idx + 1))
        simp [parseImage, imageWithoutTagOrDigest, String.toList, if_neg h1,
          hat, hcol, hna, goSplitChar_no_slash (not_mem_goTake hs idx)]
    | some aidx =>
      have hsw : '/' ∉ (goTake image aidx).toList := not_mem_goTake hs aidx
      cases hcol : charLastIdx (goTake image aidx).data ':' with
      | none =>
        simp [parseImage, imageWithoutTagOrDigest, String.toList, if_neg h1,
          hat, hcol, goSplitChar_no_slash hsw]
      | some idx =>
        have hna : goContains (goDrop (goTake image aidx) (idx + 1)) "/" = false :=
          goContains_slash_false_iff.mpr (not_mem_goDrop hsw (idx + 1))
        simp [parseImage, imageWithoutTagOrDigest, String.toList, if_neg h1,
          hat, hcol, hna, goSplitChar_no_slash (not_mem_goTake hsw idx)]

/-- Witness for `parseImage_c1` at the concrete image `"nginx:1.25"`. -/
theorem parseImage_c1_witness :
    (parseImage "nginx:1.25").registry = "docker.io" ∧
    (parseImage "nginx:1.25").repository =
      "library/" ++ imageWithoutTagOrDigest "nginx:1.25" :=
  ⟨(parseImage_c1 "nginx:1.25" (by decide) (by decide)).1,
   (parseImage_c1 "nginx:1.25" (by decide) (by decide)).2.1⟩

/-! ## Deduplicator/aggregator (images.go:242-262) and final sort
(images.go:96-99) -/

/-- One iteration of the dedup loop body (images.go:245-254).  The Go
`seen` map is modelled as an association list in first-insertion order
(a Go map's keys are unique; its iteration order is unspecified, so any
fixed order is a sound model of the returned slice's contents). -/
def dedupStep (seen : List (String × ImageReference)) (img : ImageReference) :
    List (String × ImageReference) :=
  match (seen.find? (fun p => p.1 == img.fullImage)).map Prod.snd with
  | some existing =>
    if goContains existing.source img.source then seen
    else
      seen.map (fun p =>
        if p.1 == img.fullImage then
          (p.1, { existing with source := existing.source ++ ", " ++ img.source })
        else p)
  | none => seen ++ [(img.fullImage, img)]

/-- Embeds `deduplicateImages` (images.go:242-262). -/
def deduplicateImages (images : List ImageReference) : List ImageReference :=
  (images.foldl dedupStep []).map Prod.snd

/-- The pure tail of `GetChartImages` (images.go:96-99): dedup, then sort
ascending by `fullImage`.  `sort.Slice` only promises an ordering for the
given `less`; insertion sort realizes one such ordering. -/
def getChartImagesFinalize (images : List ImageReference) : List ImageReference :=
  (deduplicateImages images).insertionSort (fun a b => a.fullImage ≤ b.fullImage)

instance : IsTotal ImageReference (fun a b => a.fullImage ≤ b.fullImage) :=
  ⟨fun a b => le_total a.fullImage b.fullImage⟩

instance : IsTrans ImageReference (fun a b => a.fullImage ≤ b.fullImage) :=
  ⟨fun _ _ _ h1 h2 => le_trans h1 h2⟩

theorem find?_key_eq_none {seen : List (String × ImageReference)} {k : String} :
    seen.find? (fun p => p.1 == k) = none ↔ ∀ p ∈ seen, p.1 ≠ k := by
  rw [List.find?_eq_none]
  simp

theorem keys_map_update (seen : List (String × ImageReference)) (k : String)
    (v : ImageReference) :
    (seen.map (fun p => if p.1 == k then (p.1, v) else p)).map Prod.fst
      = seen.map Prod.fst := by
  rw [List.map_map]
  apply List.map_congr_left
  intro p _
  show (if (p.1 == k) = true then (p.1, v) else p).1 = p.1
  split <;> rfl

/-- Every pair in the modelled `seen` map stores the image whose
`fullImage` is its key. -/
def ValidSeen (seen : List (String × ImageReference)) : Prop :=
  ∀ p ∈ seen, p.2.fullImage = p.1

theorem validSeen_dedupStep {seen : List (String × ImageReference)}
    (hv : ValidSeen seen) (img : ImageReference) :
    ValidSeen (dedupStep seen img) := by
  unfold dedupStep
  cases hf : (seen.find? (fun p => p.1 == img.fullImage)).map Prod.snd with
  | none =>
    intro p hp
    rcases List.mem_append.mp hp with h | h
    · exact hv p h
    · simp at h
      subst h
      rfl
  | some existing =>
    dsimp only
    by_cases hg : goContains existing.source img.source = true
    · rw [if_pos hg]
      exact hv
    · rw [if_neg hg]
      intro p hp
      rcases List.mem_map.mp hp with ⟨p0, hp0, hpe⟩
      by_cases hk : (p0.1 == img.fullImage) = true
      · rw [if_pos hk] at hpe
        subst hpe
        show existing.fullImage = p0.1
        simp only [Option.map_eq_some'] at hf
        obtain ⟨q, hq, hq2⟩ := hf
        have hqkey : q.1 = img.fullImage := by simpa using List.find?_some hq
        have hk2 : p0.1 = img.fullImage := by simpa using hk
        calc existing.fullImage = q.2.fullImage := by rw [hq2]
          _ = q.1 := hv q (List.mem_of_find?_eq_some hq)
          _ = img.fullImage := hqkey
          _ = p0.1 := hk2.symm
      · rw [if_neg hk] at hpe
        subst hpe
        exact hv p0 hp0

theorem nodupKeys_dedupStep {seen : List (String × ImageReference)}
    (h : (seen.map Prod.fst).Nodup) (img : ImageReference) :
    ((dedupStep seen img).map Prod.fst).Nodup := by
  unfold dedupStep
  cases hf : (seen.find? (fun p => p.1 == img.fullImage)).map Prod.snd with
  | none =>
    have habs : ∀ p ∈ seen, p.1 ≠ img.fullImage :=
      find?_key_eq_none.mp (by simpa using hf)
    have hnotmem : img.fullImage ∉ seen.map Prod.fst := by
      intro hmem
      rcases List.mem_map.mp hmem with ⟨p, hp, hpk⟩
      exact habs p hp hpk
    simp [List.nodup_append, h, List.disjoint_singleton, hnotmem]
  | some existing =>
    dsimp only
    by_cases hg : goContains existing.source img.source = true
    · rw [if_pos hg]
      exact h
    · rw [if_neg hg, keys_map_update]
      exact h

theorem mem_keys_dedupStep {seen : List (String × ImageReference)}
    {img : ImageReference} {k : String} :
    k ∈ (dedupStep seen img).map Prod.fst ↔
      k ∈ seen.map Prod.fst ∨ k = img.fullImage := by
  unfold dedupStep
  cases hf : (seen.find? (fun p => p.1 == img.fullImage)).map Prod.snd with
  | none => simp
  | some existing =>
    have hkey : img.fullImage ∈ seen.map Prod.fst := by
      simp only [Option.map_eq_some'] at hf
      obtain ⟨q, hq, _⟩ := hf
      have hqkey : q.1 = img.fullImage := by simpa using List.find?_some hq
      exact hqkey ▸ List.mem_map_of_mem Prod.fst (List.mem_of_find?_eq_some hq)
    dsimp only
    by_cases hg : goContains existing.source img.source = true
    · rw [if_pos hg]
      constructor
      · exact Or.inl
      · rintro (h | h)
        · exact h
        · exact h ▸ hkey
    · rw [if_neg hg, keys_map_update]
      constructor
      · exact Or.inl
      · rintro (h | h)
        · exact h
        · exact h ▸ hkey

theorem mem_keys_foldl {xs : List ImageReference} :
    ∀ {seen : List (String × ImageReference)} {k : String},
      k ∈ (xs.foldl dedupStep seen).map Prod.fst ↔
        k ∈ seen.map Prod.fst ∨ k ∈ xs.map (fun i => i.fullImage) := by
  induction xs with
  | nil => simp
  | cons x rest ih =>
    intro seen k
    simp only [List.foldl_cons, List.map_cons, List.mem_cons]
    rw [ih, mem_keys_dedupStep]
    tauto

theorem validSeen_foldl (xs : List ImageReference) :
    ∀ seen, ValidSeen seen → ValidSeen (xs.foldl dedupStep seen) := by
  induction xs with
  | nil => exact fun _ h => h
  | cons x rest ih =>
    intro seen hv
    exact ih _ (validSeen_dedupStep hv x)

theorem nodupKeys_foldl (xs : List ImageReference) :
    ∀ seen, (seen.map Prod.fst).Nodup →
      ((xs.foldl dedupStep seen).map Prod.fst).Nodup := by
  induction xs with
  | nil => exact fun _ h => h
  | cons x rest ih =>
    intro seen hn
    exact ih _ (nodupKeys_dedupStep hn x)

theorem foldl_dedupStep_fresh :
    ∀ (xs : List ImageReference) (seen : List (String × ImageReference)),
      (∀ x ∈ xs, ∀ p ∈ seen, p.1 ≠ x.fullImage) →
      (xs.map (fun i => i.fullImage)).Nodup →
      xs.foldl dedupStep seen = seen ++ xs.map (fun v => (v.fullImage, v)) := by
  intro xs
  induction xs with
  | nil => simp
  | cons x rest ih =>
    intro seen habs hnd
    have hnone : seen.find? (fun p => p.1 == x.fullImage) = none :=
      find?_key_eq_none.mpr (fun p hp => habs x (by simp) p hp)
    have hstep : dedupStep seen x = seen ++ [(x.fullImage, x)] := by
      unfold dedupStep
      rw [hnone]
      rfl
    rw [List.foldl_cons, hstep,
      ih (seen ++ [(x.fullImage, x)]) ?_ (List.nodup_cons.mp (by simpa using hnd)).2]
    · simp
    · intro y hy p hp
      rcases List.mem_append.mp hp with h | h
      · exact habs y (List.mem_cons_of_mem _ hy) p h
      · simp at h
        subst h
        intro hcontra
        have hx : x.fullImage ∈ rest.map (fun i => i.fullImage) := by
          rw [show x.fullImage = y.fullImage from hcontra]
          exact List.mem_map_of_mem (fun i => i.fullImage) hy
        exact (List.nodup_cons.mp (by simpa using hnd)).1 hx

theorem mapSnd_fullImage {S : List (String × ImageReference)}
    (hv : ValidSeen S) :
    (S.map Prod.snd).map (fun i => i.fullImage) = S.map Prod.fst := by
  rw [List.map_map]
  apply List.map_congr_left
  intro p hp
  exact hv p hp

theorem dedupe_keys_mem (xs : List ImageReference) (k : String) :
    k ∈ (deduplicateImages xs).map (fun i => i.fullImage) ↔
      k ∈ xs.map (fun i => i.fullImage) := by
  unfold deduplicateImages
  rw [mapSnd_fullImage (validSeen_foldl xs [] (by intro p hp; simp at hp)),
    mem_keys_foldl]
  simp

theorem dedupe_idempotent (xs : List ImageReference) :
    deduplicateImages (deduplicateImages xs) = deduplicateImages xs := by
  unfold deduplicateImages
  set S := xs.foldl dedupStep [] with hS
  have hv : ValidSeen S := validSeen_foldl xs [] (by intro p hp; simp at hp)
  have hnd : (S.map Prod.fst).Nodup := nodupKeys_foldl xs [] (by simp)
  have hfull : ((S.map Prod.snd).map (fun i => i.fullImage)).Nodup := by
    rw [mapSnd_fullImage hv]
    exact hnd
  rw [foldl_dedupStep_fresh (S.map Prod.snd) [] (by simp) hfull]
  simp [List.map_map, Function.comp]

theorem dedupe_pair {a b : ImageReference} (h : a.fullImage = b.fullImage) :
    deduplicateImages [a, b] =
      [if goContains a.source b.source then a
       else { a with source := a.source ++ ", " ++ b.source }] := by
  have hb : (a.fullImage == b.fullImage) = true := by simp [h]
  have h1 : dedupStep [] a = [(a.fullImage, a)] := by
    unfold dedupStep
    rw [show List.find? (fun p => p.1 == a.fullImage)
      ([] : List (String × ImageReference)) = none from rfl]
    rfl
  simp only [deduplicateImages, List.foldl_cons, List.foldl_nil, h1]
  unfold dedupStep
  simp only [List.find?, hb, Option.map_some']
  by_cases hc : goContains a.source b.source = true <;> simp [hc, h]

/-- C2: collision behaviour of the dedup map (`", "`-concatenation guarded
by the substring check, all other fields from the first occurrence),
idempotence, input-order independence of the key set, and sortedness of
the final caller-facing list (images.go:96-99, 242-262). -/
theorem dedupe_c2 :
    (∀ a b : ImageReference, a.fullImage = b.fullImage →
      deduplicateImages [a, b] =
        [if goContains a.source b.source then a
         else { a with source := a.source ++ ", " ++ b.source }]) ∧
    (∀ xs : List ImageReference,
      deduplicateImages (deduplicateImages xs) = deduplicateImages xs) ∧
    (∀ xs ys : List ImageReference, xs.Perm ys → ∀ k : String,
      k ∈ (deduplicateImages xs).map (fun i => i.fullImage) ↔
      k ∈ (deduplicateImages ys).map (fun i => i.fullImage)) ∧
    (∀ xs : List ImageReference,
      List.Sorted (fun a b : ImageReference => a.fullImage ≤ b.fullImage)
        (getChartImagesFinalize xs)) := by
  refine ⟨fun a b h => dedupe_pair h, dedupe_idempotent, ?_, ?_⟩
  · intro xs ys hperm k
    rw [dedupe_keys_mem, dedupe_keys_mem]
    exact (hperm.map (fun i => i.fullImage)).mem_iff
  · intro xs
    exact List.sorted_insertionSort _ _

/-- Witness for `dedupe_c2` at two concrete colliding images. -/
theorem dedupe_c2_witness :
    deduplicateImages
      [{ fullImage := "nginx:1.25", source := "Deployment/frontend" },
       { fullImage := "nginx:1.25", source := "Deployment/backend" }] =
      [if goContains "Deployment/frontend" "Deployment/backend" then
         ({ fullImage := "nginx:1.25", source := "Deployment/frontend" } : ImageReference)
       else { fullImage := "nginx:1.25",
              source := "Deployment/frontend" ++ ", " ++ "Deployment/backend" }] :=
  dedupe_c2.1 _ _ rfl

/-! ## Generic YAML value model and manifest image extraction
(images.go:135-240) -/

/-- Model of a Go `interface{}` value produced by `yaml.Unmarshal`:
`strMap` is `map[string]interface{}`, `anyMap` is
`map[interface{}]interface{}`, `list` is `[]interface{}`.  Values the
extraction code only type-asserts against are covered by `str`/`null`. -/
inductive GoVal where
  | str : String → GoVal
  | list : List GoVal → GoVal
  | strMap : List (String × GoVal) → GoVal
  | anyMap : List (GoVal × GoVal) → GoVal
  | null : GoVal

/-- Go map index `m[k]` on a `map[string]interface{}`: the zero value
(`nil`, i.e. `.null`) when absent.  A Go map's keys are unique, so an
association list models it. -/
def strMapGet (m : List (String × GoVal)) (k : String) : GoVal :=
  match m.find? (fun p => p.1 == k) with
  | some p => p.2
  | none => .null

/-- Go map index `m[k]` on a `map[interface{}]interface{}` with a string
key: only a string-typed key equal to `k` matches. -/
def anyMapGet (m : List (GoVal × GoVal)) (k : String) : GoVal :=
  match m.find? (fun p => match p.1 with | .str s => s == k | _ => false) with
  | some p => p.2
  | none => .null

/-- Go type assertion `v.(string)` with the `_`-discarded failure flag:
`""` when `v` is not a string. -/
def goStrD : GoVal → String
  | .str s => s
  | _ => ""

/-- Embeds the loop body of `navigateToPath` (images.go:222-240) on the
current `interface{}` node: each step supports both generic-map
representations; after the keys are consumed the final node must be a
`map[interface{}]interface{}`. -/
def navAux : GoVal → List String → Option (List (GoVal × GoVal))
  | cur, [] =>
    match cur with
    | .anyMap m => some m
    | _ => none
  | cur, key :: rest =>
    match cur with
    | .strMap m => navAux (strMapGet m key) rest
    | .anyMap m => navAux (anyMapGet m key) rest
    | _ => none

/-- Embeds `navigateToPath` (images.go:222-240). -/
def navigateToPath (obj : List (String × GoVal)) (path : List String) :
    Option (List (GoVal × GoVal)) :=
  navAux (GoVal.strMap obj) path

/-- The per-entry body of the two container loops (images.go:195-217): an
entry contributes an image only when it is a `map[interface{}]interface{}`
whose `"image"` key holds a non-empty string. -/
def extractContainers (cs : List GoVal) (source : String) : List ImageReference :=
  (cs.map (fun c =>
    match c with
    | .anyMap container =>
      match anyMapGet container "image" with
      | .str image =>
        if image ≠ "" then [{ parseImage image with source := source }] else []
      | _ => []
    | _ => [])).flatten

/-- Embeds `extractFromPodSpec` (images.go:187-220). -/
def extractFromPodSpec (obj : List (String × GoVal)) (path : List String)
    (source : String) : List ImageReference :=
  match navigateToPath obj path with
  | none => []
  | some spec =>
    let fromContainers :=
      match anyMapGet spec "containers" with
      | .list cs => extractContainers cs source
      | _ => []
    let fromInit :=
      match anyMapGet spec "initContainers" with
      | .list cs => extractContainers cs (source ++ " (init)")
      | _ => []
    fromContainers ++ fromInit

/-- Embeds `extractImagesFromDocument` (images.go:154-185) after the
`yaml.Unmarshal` step (the parse itself is the collaborator parameter of
`extractImagesFromDocument`). -/
def extractImagesFromObj (obj : List (String × GoVal)) : List ImageReference :=
  let kind := goStrD (strMapGet obj "kind")
  let name :=
    match strMapGet obj "metadata" with
    | .anyMap m => goStrD (anyMapGet m "name")
    | _ => ""
  let source := if name ≠ "" then kind ++ "/" ++ name else kind
  if kind = "Deployment" ∨ kind = "StatefulSet" ∨ kind = "DaemonSet" ∨
      kind = "ReplicaSet" then
    extractFromPodSpec obj ["spec", "template", "spec"] source
  else if kind = "Job" then
    extractFromPodSpec obj ["spec", "template", "spec"] source
  else if kind = "CronJob" then
    extractFromPodSpec obj ["spec", "jobTemplate", "spec", "template", "spec"] source
  else if kind = "Pod" then
    extractFromPodSpec obj ["spec"] source
  else []

/-- Embeds `extractImagesFromDocument` (images.go:154-158); `parse` models
the `yaml.Unmarshal` collaborator, `none` being a parse error. -/
def extractImagesFromDocument (parse : String → Option (List (String × GoVal)))
    (doc : String) : List ImageReference :=
  match parse doc with
  | none => []
  | some obj => extractImagesFromObj obj

/-- Embeds `extractImagesFromManifests` (images.go:135-152): split each
manifest on `"---"`, trim, skip blanks, extract per document, append. -/
def extractImagesFromManifests (parse : String → Option (List (String × GoVal)))
    (manifests : List String) : List ImageReference :=
  manifests.foldl (fun images manifest =>
    (goSplitStr manifest "---").foldl (fun acc doc =>
      let d := goTrimSpace doc
      if d = "" then acc else acc ++ extractImagesFromDocument parse d) images) []

/-- The trimmed, non-blank fragments of one manifest (images.go:139-144). -/
def manifestFragments (manifest : String) : List String :=
  ((goSplitStr manifest "---").map goTrimSpace).filter (fun d => d ≠ "")

/-! ### C9: per-document fault isolation of batch extraction -/

theorem inner_fold_eq (parse : String → Option (List (String × GoVal)))
    (docs : List String) :
    ∀ acc : List ImageReference,
      docs.foldl (fun acc doc =>
          let d := goTrimSpace doc
          if d = "" then acc else acc ++ extractImagesFromDocument parse d) acc
        = acc ++ (((docs.map goTrimSpace).filter (fun d => d ≠ "")).map
            (extractImagesFromDocument parse)).flatten := by
  induction docs with
  | nil => simp
  | cons doc rest ih =>
    intro acc
    simp only [List.foldl_cons, List.map_cons]
    by_cases hd : goTrimSpace doc = ""
    · simp only [hd, if_pos rfl, List.filter_cons]
      simp [ih acc]
    · simp only [if_neg hd, List.filter_cons]
      rw [ih (acc ++ extractImagesFromDocument parse (goTrimSpace doc))]
      simp [hd]

theorem outer_fold_eq (parse : String → Option (List (String × GoVal)))
    (manifests : List String) :
    extractImagesFromManifests parse manifests =
      ((manifests.map (fun m =>
        ((manifestFragments m).map (extractImagesFromDocument parse)).flatten)).flatten) := by
  unfold extractImagesFromManifests
  suffices h : ∀ acc : List ImageReference,
      manifests.foldl (fun images manifest =>
        (goSplitStr manifest "---").foldl (fun acc doc =>
          let d := goTrimSpace doc
          if d = "" then acc else acc ++ extractImagesFromDocument parse d) images) acc
      = acc ++ ((manifests.map (fun m =>
          ((manifestFragments m).map (extractImagesFromDocument parse)).flatten)).flatten) by
    simpa using h []
  induction manifests with
  | nil => simp
  | cons m rest ih =>
    intro acc
    simp only [List.foldl_cons, List.map_cons, List.flatten_cons]
    rw [inner_fold_eq parse (goSplitStr m "---") acc, ih]
    simp [manifestFragments, List.append_assoc]

theorem flatten_map_flatten (g : String → List ImageReference)
    (F : String → List String) (ms : List String) :
    ((ms.map (fun m => ((F m).map g).flatten)).flatten) =
      (((ms.map F).flatten).map g).flatten := by
  induction ms with
  | nil => simp
  | cons m rest ih => simp [ih]

theorem filter_absorb (g : String → List ImageReference)
    (p : String → Bool) (l : List String)
    (h : ∀ x ∈ l, p x = false → g x = []) :
    ((l.filter p).map g).flatten = (l.map g).flatten := by
  induction l with
  | nil => simp
  | cons x rest ih =>
    have ih2 := ih (fun y hy hpy => h y (List.mem_cons_of_mem x hy) hpy)
    cases hxv : p x with
    | true => simp [List.filter_cons, hxv, ih2]
    | false =>
      simp [List.filter_cons, hxv, ih2, h x (List.mem_cons_self x rest) hxv]

/-- C9: a fragment that fails YAML parsing contributes zero images and does
not abort the batch; the batch result is the concatenation of the
per-document extractions over the well-formed fragments, and extraction is
total (images.go:135-158). -/
theorem extract_c9 (parse : String → Option (List (String × GoVal)))
    (manifests : List String) :
    extractImagesFromManifests parse manifests =
      ((((manifests.map manifestFragments).flatten).filter
          (fun d => (parse d).isSome)).map
        (extractImagesFromDocument parse)).flatten ∧
    ∀ d, parse d = none → extractImagesFromDocument parse d = [] := by
  constructor
  · rw [outer_fold_eq, flatten_map_flatten (extractImagesFromDocument parse)
      manifestFragments manifests]
    rw [filter_absorb]
    intro x _ hx
    have hnone : parse x = none := by
      cases hv : parse x
      · rfl
      · rw [hv] at hx
        simp at hx
    unfold extractImagesFromDocument
    rw [hnone]
  · intro d hd
    unfold extractImagesFromDocument
    rw [hd]

/-- A concrete parser table for the `extract_c9` witness: one well-formed
`Pod` document; everything else is a parse error. -/
def c9ParseEx : String → Option (List (String × GoVal)) := fun d =>
  if d = "podDoc" then
    some [("kind", GoVal.str "Pod"),
          ("metadata", GoVal.anyMap [(GoVal.str "name", GoVal.str "p")]),
          ("spec", GoVal.anyMap [(GoVal.str "containers",
            GoVal.list [GoVal.anyMap [(GoVal.str "image", GoVal.str "nginx")]])])]
  else none

/-- Witness for `extract_c9`: a two-fragment manifest, one well-formed
`Pod` document and one garbage fragment which the parser rejects. -/
theorem extract_c9_witness :
    extractImagesFromManifests c9ParseEx ["podDoc---notyaml"] =
      ((((["podDoc---notyaml"].map manifestFragments).flatten).filter
          (fun d => (c9ParseEx d).isSome)).map
        (extractImagesFromDocument c9ParseEx)).flatten ∧
    extractImagesFromDocument c9ParseEx "notyaml" = [] :=
  ⟨(extract_c9 c9ParseEx ["podDoc---notyaml"]).1,
   (extract_c9 c9ParseEx ["podDoc---notyaml"]).2 "notyaml" rfl⟩

/-! ### C7: kind dispatch -/

/-- A CronJob document shaped the way `yaml.v2` produces it: string-keyed
top level, interface-keyed nested maps, exactly one container. -/
def mkCronJobObj (name image : String) : List (String × GoVal) :=
  [("kind", GoVal.str "CronJob"),
   ("metadata", GoVal.anyMap [(GoVal.str "name", GoVal.str name)]),
   ("spec", GoVal.anyMap [(GoVal.str "jobTemplate", GoVal.anyMap
     [(GoVal.str "spec", GoVal.anyMap
       [(GoVal.str "template", GoVal.anyMap
         [(GoVal.str "spec", GoVal.anyMap
           [(GoVal.str "containers", GoVal.list
             [GoVal.anyMap [(GoVal.str "image", GoVal.str image)]])])])])])])]

/-- C7: a CronJob document with one container under
`spec.jobTemplate.spec.template.spec.containers` yields exactly one
reference sourced `CronJob/<name>`; any non-workload kind (e.g. ConfigMap)
yields zero images (images.go:154-185). -/
theorem extract_c7 (name image : String) (hn : name ≠ "") (hi : image ≠ "") :
    extractImagesFromObj (mkCronJobObj name image) =
      [{ parseImage image with source := "CronJob/" ++ name }] ∧
    ∀ obj : List (String × GoVal),
      goStrD (strMapGet obj "kind") = "ConfigMap" →
        extractImagesFromObj obj = [] := by
  constructor
  · simp [extractImagesFromObj, mkCronJobObj, strMapGet, anyMapGet, goStrD,
      hn, hi, extractFromPodSpec, navigateToPath, navAux, extractContainers,
      List.find?]
  · intro obj hk
    simp [extractImagesFromObj, hk]

/-- Witness for `extract_c7` at a concrete CronJob document. -/
theorem extract_c7_witness :
    extractImagesFromObj (mkCronJobObj "backup" "busybox:1.35") =
      [{ parseImage "busybox:1.35" with source := "CronJob/" ++ "backup" }] :=
  (extract_c7 "backup" "busybox:1.35" (by decide) (by decide)).1

/-! ### C5: dual-representation navigation -/

/-- C5 counterexample: the two generic-map representations are not
interchangeable at the final (pod-spec) node — a string-keyed final node
makes `navigateToPath` return `nil` (not found) while an interface-keyed
one succeeds (images.go:236-239). -/
theorem navigate_c5_counterexample :
    navigateToPath [("spec", GoVal.anyMap [])] ["spec"] = some [] ∧
    navigateToPath [("spec", GoVal.strMap [])] ["spec"] = none :=
  ⟨rfl, rfl⟩

/-- C5 amended: traversal treats the two map representations identically at
every keyed step; the final node must be interface-keyed; any shape
mismatch (at a step, at the final node, or at a container entry) yields
"not found"/skip — never a failure — and "not found" means zero images
(images.go:187-240). -/
theorem navigate_c5_amended :
    (∀ (k : String) (v : GoVal) (path : List String),
      navAux (GoVal.strMap [(k, v)]) (k :: path) =
        navAux (GoVal.anyMap [(GoVal.str k, v)]) (k :: path)) ∧
    (∀ m, navAux (GoVal.anyMap m) [] = some m) ∧
    (∀ m, navAux (GoVal.strMap m) [] = none) ∧
    (∀ s path, navAux (GoVal.str s) path = none) ∧
    (∀ ls path, navAux (GoVal.list ls) path = none) ∧
    (∀ path, navAux GoVal.null path = none) ∧
    (∀ obj path src, navigateToPath obj path = none →
      extractFromPodSpec obj path src = []) ∧
    (∀ cs src, extractContainers cs src =
      extractContainers (cs.filter (fun c => match c with
        | GoVal.anyMap _ => true
        | _ => false)) src) := by
  refine ⟨?_, fun m => rfl, fun m => rfl, ?_, ?_, ?_, ?_, ?_⟩
  · intro k v path
    simp [navAux, strMapGet, anyMapGet, List.find?]
  · intro s path
    cases path <;> rfl
  · intro ls path
    cases path <;> rfl
  · intro path
    cases path <;> rfl
  · intro obj path src h
    unfold extractFromPodSpec
    rw [h]
  · intro cs src
    induction cs with
    | nil => rfl
    | cons c rest ih =>
      cases c <;> simp [extractContainers, List.filter_cons] <;>
        simpa [extractContainers] using ih

/-- Witness for `navigate_c5_amended`: the not-found-means-zero-images
conjunct applied at a concrete mismatching document. -/
theorem navigate_c5_amended_witness :
    extractFromPodSpec [("spec", GoVal.null)] ["spec"] "Pod/x" = [] :=
  navigate_c5_amended.2.2.2.2.2.2.1 [("spec", GoVal.null)] ["spec"] "Pod/x" rfl

/-! ## Repository/version resolution (lib/helm_client/client.go) -/

/-- Embeds `parseOCIReference` (client.go:159-185).  Note the Go code cuts
`ref` at the FIRST `':'` (`strings.Index`) when a chart name is given. -/
def parseOCIReference (repoURL chartName version : String) : String :=
  let ref := goTrimPrefix repoURL "oci://"
  let refWithoutTag :=
    match charIdx ref.toList ':' with
    | some idx => goTake ref idx
    | none => ref
  let ref1 :=
    if chartName ≠ "" then
      let rwt := goTrimSuffix refWithoutTag "/"
      if goHasSuffix rwt ("/" ++ chartName) = false ∧ rwt ≠ chartName then
        rwt ++ "/" ++ chartName
      else rwt
    else ref
  if version ≠ "" then ref1 ++ ":" ++ version else ref1

/-- The claim/spec description of the derived reference: strip the scheme,
append `"/" ++ chartName` exactly when a non-empty chart name is given and
the URL does not already terminate with it, then append `":" ++ version`
when a version is requested. -/
def specOCIReference (repoURL chartName version : String) : String :=
  let base := goTrimPrefix repoURL "oci://"
  let base1 :=
    if chartName ≠ "" ∧
        ¬ (goHasSuffix base ("/" ++ chartName) = true ∨ base = chartName) then
      base ++ "/" ++ chartName
    else base
  if version ≠ "" then base1 ++ ":" ++ version else base1

theorem goContains_char_false_iff {s : String} {c : Char} :
    goContains s (String.mk [c]) = false ↔ c ∉ s.toList := by
  rw [← Bool.not_eq_true, goContains_single_iff]

/-- C6 counterexample, two divergences from the claimed formula.  First: a
`:port` in the locator with a chart name given makes the code truncate at
the first `':'`, losing the port and the rest of the path, so the derived
reference is NOT the stripped locator with the chart name appended.
Second: a locator ending in `'/'` has that trailing slash trimmed before
the chart name is appended, where the claimed formula would keep it. -/
theorem parseOCIReference_c6_counterexample :
    parseOCIReference "oci://localhost:5000/charts" "app" "" = "localhost/app" ∧
    specOCIReference "oci://localhost:5000/charts" "app" "" =
      "localhost:5000/charts/app" ∧
    parseOCIReference "oci://localhost:5000/charts" "app" "" ≠
      specOCIReference "oci://localhost:5000/charts" "app" "" ∧
    parseOCIReference "oci://ghcr.io/org/" "app" "" = "ghcr.io/org/app" ∧
    specOCIReference "oci://ghcr.io/org/" "app" "" = "ghcr.io/org//app" ∧
    parseOCIReference "oci://ghcr.io/org/" "app" "" ≠
      specOCIReference "oci://ghcr.io/org/" "app" "" :=
  ⟨by decide, by decide, by decide, by decide, by decide, by decide⟩

/-- C6 amended: the claimed formula holds for locators that, after
stripping `oci://`, contain no `':'` (no port, no tag) and do not end in
`'/'`.  Outside those conditions the code diverges from the formula, as
both counterexample conjuncts show: a locator containing `':'` is
truncated at the first `':'` before the chart name is appended, and a
trailing `'/'` is trimmed before the append. -/
theorem parseOCIReference_c6_amended (repoURL chartName version : String)
    (hc : goContains (goTrimPrefix repoURL "oci://") ":" = false)
    (hs : goHasSuffix (goTrimPrefix repoURL "oci://") "/" = false) :
    parseOCIReference repoURL chartName version =
      specOCIReference repoURL chartName version := by
  have hc2 : ':' ∉ (goTrimPrefix repoURL "oci://").toList := by
    rw [show (":" : String) = String.mk [':'] from rfl] at hc
    exact goContains_char_false_iff.mp hc
  have hnone : charIdx (goTrimPrefix repoURL "oci://").data ':' = none :=
    charIdx_eq_none_iff.mpr hc2
  by_cases hcn : chartName = ""
  · simp [parseOCIReference, specOCIReference, hnone, hcn]
  · by_cases hsuf :
      goHasSuffix (goTrimPrefix repoURL "oci://") ("/" ++ chartName) = true
    · simp [parseOCIReference, specOCIReference, hnone, hcn, hsuf,
        goTrimSuffix, hs]
    · by_cases heq : goTrimPrefix repoURL "oci://" = chartName
      · have hnone2 : charIdx chartName.data ':' = none := heq ▸ hnone
        have hs2 : goHasSuffix chartName "/" = false := heq ▸ hs
        simp [parseOCIReference, specOCIReference, hnone, hnone2, hcn, hsuf,
          goTrimSuffix, hs, hs2, heq]
      · simp [parseOCIReference, specOCIReference, hnone, hcn, hsuf,
          goTrimSuffix, hs, heq]

/-- Witness for `parseOCIReference_c6_amended` at a colon-free locator. -/
theorem parseOCIReference_c6_amended_witness :
    parseOCIReference "oci://ghcr.io/org/charts" "mychart" "1.0.0" =
      specOCIReference "oci://ghcr.io/org/charts" "mychart" "1.0.0" :=
  parseOCIReference_c6_amended "oci://ghcr.io/org/charts" "mychart" "1.0.0"
    (by decide) (by decide)

/-- HTTP-path version listing (client.go:298-315), given the entries of a
successfully cached repository index (`chart name → version strings`,
pre-sorted descending by `SortEntries`).  Go map iteration is modelled by
the association list; there is no not-found check in this path. -/
def listChartVersionsHTTP (entries : List (String × List String))
    (chart : String) : Except String (List String) :=
  .ok (entries.foldl (fun acc p => if p.1 = chart then acc ++ p.2 else acc) [])

/-- OCI path of `GetChartLatestVersion` (client.go:465-476); `tagsResult`
models the registry collaborator `c.registryClient.Tags(ref)`, which
returns tags pre-sorted in descending semver order. -/
def getChartLatestVersionOCI (tagsResult : Except String (List String))
    (ref : String) : Except String String :=
  match tagsResult with
  | .error e => .error ("failed to list tags for OCI chart " ++ ref ++ ": " ++ e)
  | .ok [] => .error ("no versions found for OCI chart " ++ ref)
  | .ok (t :: _) => .ok t

/-- HTTP path of `GetChartLatestVersion` (client.go:478-490): Go map index
`Entries[chartName]` modelled by `find?` (map keys are unique). -/
def getChartLatestVersionHTTP (entries : List (String × List String))
    (chartName repoURL : String) : Except String String :=
  match (entries.find? (fun p => p.1 == chartName)).map Prod.snd with
  | none => .error ("chart " ++ chartName ++ " not found in repository " ++ repoURL)
  | some [] => .error ("chart " ++ chartName ++ " not found in repository " ++ repoURL)
  | some (v :: _) => .ok v

/-- C3 counterexample: `ListChartVersions` (the `resolveVersions` of the
spec) on the HTTP path does NOT fail when the chart is absent from the
index: it returns a successful empty list (client.go:303-315 contains no
not-found check), contradicting the claimed "chart not found" failure. -/
theorem resolve_c3_counterexample :
    listChartVersionsHTTP [("other", ["1.0.0"])] "mychart" = .ok [] := rfl

/-- C3 amended: `resolveLatest` fails with a not-found error for an OCI
locator with an empty tag list and for an HTTP locator whose chart is
absent; otherwise it returns the head of the pre-sorted descending list.
`resolveVersions` on the HTTP path, however, succeeds with an empty list
(no error) when the chart is absent (client.go:287-316, 464-491). -/
theorem resolve_c3_amended :
    (∀ ref, getChartLatestVersionOCI (.ok []) ref =
      .error ("no versions found for OCI chart " ++ ref)) ∧
    (∀ entries chartName repoURL, (∀ p ∈ entries, p.1 ≠ chartName) →
      getChartLatestVersionHTTP entries chartName repoURL =
        .error ("chart " ++ chartName ++ " not found in repository " ++ repoURL)) ∧
    (∀ t ts ref, getChartLatestVersionOCI (.ok (t :: ts)) ref = .ok t) ∧
    (∀ entries chartName repoURL k v vs,
      entries.find? (fun p => p.1 == chartName) = some (k, v :: vs) →
      getChartLatestVersionHTTP entries chartName repoURL = .ok v) ∧
    (∀ entries chart, (∀ p ∈ entries, p.1 ≠ chart) →
      listChartVersionsHTTP entries chart = .ok []) := by
  refine ⟨fun ref => rfl, ?_, fun t ts ref => rfl, ?_, ?_⟩
  · intro entries chartName repoURL h
    unfold getChartLatestVersionHTTP
    rw [List.find?_eq_none.mpr (fun p hp => by simpa using h p hp)]
    rfl
  · intro entries chartName repoURL k v vs hfind
    unfold getChartLatestVersionHTTP
    rw [hfind]
    rfl
  · intro entries chart h
    unfold listChartVersionsHTTP
    congr 1
    induction entries with
    | nil => rfl
    | cons e rest ih =>
      rw [List.foldl_cons, if_neg (h e (List.mem_cons_self e rest))]
      exact ih (fun p hp => h p (List.mem_cons_of_mem e hp))

/-- Witness for `resolve_c3_amended` at concrete inputs. -/
theorem resolve_c3_amended_witness :
    getChartLatestVersionHTTP [] "mychart" "https://charts.example.com" =
      .error ("chart " ++ "mychart" ++ " not found in repository " ++
        "https://charts.example.com") ∧
    getChartLatestVersionOCI (.ok ["2.0.0", "1.0.0"]) "ghcr.io/org/app" =
      .ok "2.0.0" ∧
    listChartVersionsHTTP [("other", ["1.0.0"])] "absent" = .ok [] :=
  ⟨resolve_c3_amended.2.1 [] "mychart" "https://charts.example.com"
     (by intro p hp; simp at hp),
   resolve_c3_amended.2.2.1 "2.0.0" ["1.0.0"] "ghcr.io/org/app",
   resolve_c3_amended.2.2.2.2 [("other", ["1.0.0"])] "absent"
     (by intro p hp; simp at hp; subst hp; decide)⟩

/-! ### C10: ListCharts on an OCI locator -/

/-- Embeds `ExtractChartNameFromOCI` (client.go:187-200): last
`'/'`-delimited segment of the scheme-stripped locator, truncated at its
first `':'` (`len(parts) > 0` always holds since a split is non-empty; the
`return ""` fallback is the unreachable `none` branch). -/
def ExtractChartNameFromOCI (repoURL : String) : String :=
  match (goSplitChar (goTrimPrefix repoURL "oci://") '/').getLast? with
  | none => ""
  | some chartName =>
    match charIdx chartName.toList ':' with
    | some idx => goTake chartName idx
    | none => chartName

/-- The OCI branch of `ListCharts` (client.go:252-261).  It takes only the
locator: no index lookup and no cache access occur on this path. -/
def listChartsOCI (repoURL : String) : Except String (List String) :=
  let chartName := ExtractChartNameFromOCI repoURL
  if chartName = "" then
    .error ("invalid OCI reference: cannot extract chart name from " ++ repoURL)
  else .ok [chartName]

/-- The claim's independent description of the extracted name: the last
`'/'`-delimited segment after stripping the scheme, keeping only the
characters before the first `':'`. -/
def specChartNameFromOCI (repoURL : String) : String :=
  String.mk ((((splitChar (goTrimPrefix repoURL "oci://").toList '/').getLast?).getD
    []).takeWhile (fun c => c != ':'))

theorem take_at_charIdx (l : List Char) (c : Char) :
    (match charIdx l c with | some i => l.take i | none => l)
      = l.takeWhile (fun x => x != c) := by
  induction l with
  | nil => rfl
  | cons a rest ih =>
    by_cases ha : a = c
    · subst ha
      have hstep : charIdx (a :: rest) a = some 0 := by
        unfold charIdx
        rw [if_pos rfl]
      rw [hstep, List.takeWhile_cons]
      simp
    · cases hr : charIdx rest c with
      | none =>
        rw [hr] at ih
        simp only at ih
        have hstep : charIdx (a :: rest) c = none := by
          unfold charIdx
          rw [if_neg ha, hr]
          rfl
        rw [hstep, List.takeWhile_cons, if_pos (by simp [ha]), ← ih]
      | some j =>
        rw [hr] at ih
        simp only at ih
        have hstep : charIdx (a :: rest) c = some (j + 1) := by
          unfold charIdx
          rw [if_neg ha, hr]
          rfl
        rw [hstep, List.takeWhile_cons, if_pos (by simp [ha])]
        simp only [List.take_succ_cons, ih]

theorem extractChartName_eq_spec (repoURL : String) :
    ExtractChartNameFromOCI repoURL = specChartNameFromOCI repoURL := by
  unfold ExtractChartNameFromOCI specChartNameFromOCI goSplitChar
  rw [List.getLast?_map]
  cases hl : (splitChar (goTrimPrefix repoURL "oci://").toList '/').getLast? with
  | none => exact absurd (List.getLast?_eq_none_iff.mp hl) (splitChar_ne_nil _ _)
  | some lastC =>
    simp only [Option.map_some', Option.getD_some]
    have h := take_at_charIdx lastC ':'
    show (match charIdx lastC ':' with
          | some idx => String.mk (lastC.take idx)
          | none => String.mk lastC)
        = String.mk (lastC.takeWhile (fun c => c != ':'))
    cases hidx : charIdx lastC ':' with
    | none =>
      rw [hidx] at h
      simp only at h
      dsimp only
      rw [← h]
    | some idx =>
      rw [hidx] at h
      simp only at h
      dsimp only
      rw [h]

theorem extractChartName_no_slash (repoURL : String) :
    goContains (ExtractChartNameFromOCI repoURL) "/" = false := by
  unfold ExtractChartNameFromOCI goSplitChar
  rw [List.getLast?_map]
  cases hl : (splitChar (goTrimPrefix repoURL "oci://").toList '/').getLast? with
  | none => exact absurd (List.getLast?_eq_none_iff.mp hl) (splitChar_ne_nil _ _)
  | some lastC =>
    simp only [Option.map_some']
    have hnos : '/' ∉ lastC :=
      splitChar_not_mem lastC (List.mem_of_getLast?_eq_some hl)
    rw [show ("/" : String) = String.mk ['/'] from rfl, goContains_char_false_iff]
    show '/' ∉ (match charIdx lastC ':' with
        | some idx => String.mk (lastC.take idx)
        | none => String.mk lastC).toList
    cases hidx : charIdx lastC ':' with
    | some idx => exact fun hc => hnos (List.take_subset idx lastC hc)
    | none => exact hnos

theorem extractChartName_no_colon (repoURL : String) :
    goContains (ExtractChartNameFromOCI repoURL) ":" = false := by
  unfold ExtractChartNameFromOCI goSplitChar
  rw [List.getLast?_map]
  cases hl : (splitChar (goTrimPrefix repoURL "oci://").toList '/').getLast? with
  | none => exact absurd (List.getLast?_eq_none_iff.mp hl) (splitChar_ne_nil _ _)
  | some lastC =>
    simp only [Option.map_some']
    rw [show (":" : String) = String.mk [':'] from rfl, goContains_char_false_iff]
    show ':' ∉ (match charIdx lastC ':' with
        | some idx => String.mk (lastC.take idx)
        | none => String.mk lastC).toList
    cases hidx : charIdx lastC ':' with
    | some idx => exact charIdx_not_mem_take hidx
    | none => exact charIdx_eq_none_iff.mp hidx

/-- C10: `ListCharts` on an OCI locator returns exactly the one-element
list holding the name extracted from the locator, fails exactly when that
name is empty, the extraction matches the last-segment/first-colon
description, and the name never holds `'/'` or `':'`
(client.go:187-200, 252-261). -/
theorem listCharts_c10 (repoURL : String) :
    (ExtractChartNameFromOCI repoURL = "" →
      listChartsOCI repoURL =
        .error ("invalid OCI reference: cannot extract chart name from " ++ repoURL)) ∧
    (ExtractChartNameFromOCI repoURL ≠ "" →
      listChartsOCI repoURL = .ok [ExtractChartNameFromOCI repoURL]) ∧
    ExtractChartNameFromOCI repoURL = specChartNameFromOCI repoURL ∧
    goContains (ExtractChartNameFromOCI repoURL) "/" = false ∧
    goContains (ExtractChartNameFromOCI repoURL) ":" = false :=
  ⟨fun h => by simp [listChartsOCI, h],
   fun h => by simp [listChartsOCI, h],
   extractChartName_eq_spec repoURL,
   extractChartName_no_slash repoURL,
   extractChartName_no_colon repoURL⟩

/-- Witness for `listCharts_c10` at a concrete tagged OCI locator. -/
theorem listCharts_c10_witness :
    listChartsOCI "oci://ghcr.io/org/charts/mychart:1.0.0" =
      .ok [ExtractChartNameFromOCI "oci://ghcr.io/org/charts/mychart:1.0.0"] ∧
    ExtractChartNameFromOCI "oci://ghcr.io/org/charts/mychart:1.0.0" = "mychart" :=
  ⟨((listCharts_c10 "oci://ghcr.io/org/charts/mychart:1.0.0").2.1 (by decide)),
   by decide⟩

/-! ## Chart dependency walker (lib/helm_parser/parser.go) -/

/-- A raw chart file (`chart.File`): name and contents. -/
structure RawFile where
  name : String
  data : String
deriving DecidableEq, Repr

/-- In-memory chart object (the §6 collaborator interface: name, version,
raw files, and the already-loaded subcharts `chart.Dependencies()`). -/
inductive Chart where
  | mk (name : String) (version : String) (raw : List RawFile)
      (deps : List Chart)

def Chart.name : Chart → String
  | .mk n _ _ _ => n

def Chart.version : Chart → String
  | .mk _ v _ _ => v

def Chart.raw : Chart → List RawFile
  | .mk _ _ r _ => r

def Chart.deps : Chart → List Chart
  | .mk _ _ _ d => d

theorem Chart.sizeOf_deps_lt (c : Chart) : sizeOf c.deps < sizeOf c := by
  cases c
  simp [Chart.deps]

/-- Embeds `dependencyItem` (parser.go:16-20). -/
structure DependencyItem where
  name : String
  version : String
  repository : String
deriving DecidableEq, Repr

/-- Embeds `chartSchema` (parser.go:12-14). -/
structure ChartSchema where
  dependencies : List DependencyItem
deriving DecidableEq, Repr

/-- The `Chart.yaml` contents located by the loop at parser.go:23-29 (first
raw file with that name); `""` is Go's nil/empty byte slice, which the
`len(chartYAML) == 0` check at parser.go:31 treats as "not found". -/
def chartYamlData (c : Chart) : String :=
  match c.raw.find? (fun f => f.name == "Chart.yaml") with
  | some f => f.data
  | none => ""

mutual
/-- Embeds `GetChartDependencies` (parser.go:22-68).  `p` models the
`yaml.Unmarshal` collaborator, `ser` the `json.Marshal` one.  The result
keeps Go's nil/non-nil slice distinction: `.ok none` is `return nil, nil`,
the zero-declared-dependencies path of parser.go:40-42. -/
def getChartDependencies (p : String → Except String ChartSchema)
    (ser : DependencyItem → String) (c : Chart) :
    Except String (Option (List String)) :=
  if chartYamlData c = "" then
    .error "`Chart.yaml` not found in the chart"
  else
    match p (chartYamlData c) with
    | .error e => .error ("failed to unmarshal Chart.yaml: " ++ e)
    | .ok schema =>
      if schema.dependencies = [] then .ok none
      else
        match walkDepItems p ser c schema.dependencies with
        | .error e => .error e
        | .ok l => .ok (some l)
termination_by (2 * sizeOf c + 1, 0)

/-- The dependency loop of `GetChartDependencies` (parser.go:46-65):
validate the three mandatory fields, serialize the item, then recurse into
the first already-loaded subchart matching on name AND version; nested
results follow the item (depth-first, pre-order). -/
def walkDepItems (p : String → Except String ChartSchema)
    (ser : DependencyItem → String) (c : Chart)
    (items : List DependencyItem) : Except String (List String) :=
  match items with
  | [] => .ok []
  | d :: rest =>
    if d.name = "" ∨ d.version = "" ∨ d.repository = "" then
      .error ("dependency item is missing required fields: " ++ d.name ++ " "
        ++ d.version ++ " " ++ d.repository)
    else
      match hfind : c.deps.find? (fun sub =>
          sub.name == d.name && sub.version == d.version) with
      | some sub =>
        have hsz : sizeOf sub < sizeOf c :=
          Nat.lt_trans (List.sizeOf_lt_of_mem (List.mem_of_find?_eq_some hfind))
            (Chart.sizeOf_deps_lt c)
        match getChartDependencies p ser sub with
        | .error e =>
          .error ("failed to get dependencies for chart " ++ sub.name ++ ": " ++ e)
        | .ok r =>
          match walkDepItems p ser c rest with
          | .error e => .error e
          | .ok tail => .ok (ser d :: (r.getD [] ++ tail))
      | none =>
        match walkDepItems p ser c rest with
        | .error e => .error e
        | .ok tail => .ok (ser d :: tail)
termination_by (2 * sizeOf c, sizeOf items)
end

theorem walkDepItems_error_of_bad (p : String → Except String ChartSchema)
    (ser : DependencyItem → String) (c : Chart) :
    ∀ items : List DependencyItem,
      (∃ d ∈ items, d.name = "" ∨ d.version = "" ∨ d.repository = "") →
      ∃ e, walkDepItems p ser c items = .error e := by
  intro items
  induction items with
  | nil => simp
  | cons d rest ih =>
    rintro ⟨d0, hd0, hbad⟩
    unfold walkDepItems
    by_cases hd : d.name = "" ∨ d.version = "" ∨ d.repository = ""
    · rw [if_pos hd]
      exact ⟨_, rfl⟩
    · rw [if_neg hd]
      have hmem : d0 ∈ rest := by
        rcases List.mem_cons.mp hd0 with h | h
        · subst h
          exact absurd hbad hd
        · exact h
      obtain ⟨e, he⟩ := ih ⟨d0, hmem, hbad⟩
      split
      · split
        · exact ⟨_, rfl⟩
        · rw [he]
          exact ⟨_, rfl⟩
      · rw [he]
        exact ⟨_, rfl⟩

/-- Concrete collaborators for the C4 counterexample: a parser that
succeeds on every input with a zero-dependency schema (as `yaml.Unmarshal`
does on empty input), and a trivial serializer. -/
def c4ParseEx : String → Except String ChartSchema := fun _ => .ok ⟨[]⟩

def c4SerEx : DependencyItem → String := fun d => d.name

/-- C4 counterexample.  First conjunct: a chart whose `Chart.yaml` IS
present in its raw files but empty fails (with the not-found error), even
though none of the claim's three failure conditions holds — the parse
succeeds on `""`.  Second conjunct: a chart declaring zero dependencies
returns Go's `nil` slice (modelled `none`), not the claimed non-nil empty
result `some []`. -/
theorem deps_c4_counterexample :
    getChartDependencies c4ParseEx c4SerEx
      (Chart.mk "c" "1.0.0" [RawFile.mk "Chart.yaml" ""] []) =
      .error "`Chart.yaml` not found in the chart" ∧
    getChartDependencies c4ParseEx c4SerEx
      (Chart.mk "c" "1.0.0" [RawFile.mk "Chart.yaml" "name: c"] []) =
      .ok none ∧
    getChartDependencies c4ParseEx c4SerEx
      (Chart.mk "c" "1.0.0" [RawFile.mk "Chart.yaml" "name: c"] []) ≠
      .ok (some []) := by
  refine ⟨?_, ?_, ?_⟩ <;>
    simp [getChartDependencies, chartYamlData, c4ParseEx, Chart.raw, List.find?]

/-- C4 amended: the walk fails when the chart's `Chart.yaml` is absent
from the raw files OR present with empty contents, when the file fails to
parse, or when some declared dependency item has an empty name, version or
repository (the error aborts the walk with no partial result — the error
arm carries no list); failures from recursing into a matched subchart also
propagate.  A chart whose file parses to zero declared dependencies
succeeds with an empty result, returned as Go's nil slice
(parser.go:22-68). -/
theorem deps_c4_amended :
    (∀ p ser c, chartYamlData c = "" →
      getChartDependencies p ser c =
        .error "`Chart.yaml` not found in the chart") ∧
    (∀ p ser c e, chartYamlData c ≠ "" → p (chartYamlData c) = .error e →
      getChartDependencies p ser c =
        .error ("failed to unmarshal Chart.yaml: " ++ e)) ∧
    (∀ p ser c schema, chartYamlData c ≠ "" →
      p (chartYamlData c) = .ok schema →
      (∃ d ∈ schema.dependencies,
        d.name = "" ∨ d.version = "" ∨ d.repository = "") →
      ∃ e, getChartDependencies p ser c = .error e) ∧
    (∀ p ser c schema, chartYamlData c ≠ "" →
      p (chartYamlData c) = .ok schema → schema.dependencies = [] →
      getChartDependencies p ser c = .ok none) := by
  refine ⟨?_, ?_, ?_, ?_⟩
  · intro p ser c h
    unfold getChartDependencies
    rw [if_pos h]
  · intro p ser c e hy hp
    unfold getChartDependencies
    rw [if_neg hy, hp]
  · intro p ser c schema hy hp hbad
    obtain ⟨e, he⟩ := walkDepItems_error_of_bad p ser c schema.dependencies hbad
    have hne : schema.dependencies ≠ [] := by
      obtain ⟨d, hd, _⟩ := hbad
      intro hnil
      rw [hnil] at hd
      simp at hd
    unfold getChartDependencies
    rw [if_neg hy, hp]
    dsimp only
    rw [if_neg hne, he]
    exact ⟨_, rfl⟩
  · intro p ser c schema hy hp hnil
    unfold getChartDependencies
    rw [if_neg hy, hp]
    dsimp only
    rw [if_pos hnil]

/-- Witness for `deps_c4_amended` at a concrete missing-file chart and a
concrete bad-item chart. -/
theorem deps_c4_amended_witness :
    getChartDependencies c4ParseEx c4SerEx (Chart.mk "c" "1.0.0" [] []) =
      .error "`Chart.yaml` not found in the chart" ∧
    (∃ e, getChartDependencies
      (fun _ => .ok ⟨[DependencyItem.mk "dep1" "" "https://r"]⟩) c4SerEx
      (Chart.mk "c" "1.0.0" [RawFile.mk "Chart.yaml" "x"] []) = .error e) :=
  ⟨deps_c4_amended.1 c4ParseEx c4SerEx (Chart.mk "c" "1.0.0" [] []) rfl,
   deps_c4_amended.2.2.1 (fun _ => .ok ⟨[DependencyItem.mk "dep1" "" "https://r"]⟩)
     c4SerEx (Chart.mk "c" "1.0.0" [RawFile.mk "Chart.yaml" "x"] [])
     ⟨[DependencyItem.mk "dep1" "" "https://r"]⟩
     (by decide) rfl
     ⟨DependencyItem.mk "dep1" "" "https://r", by simp⟩⟩

/-- C8: each declared dependency's serialized item comes before the nested
results of its matched subchart (name AND version must both match;
depth-first, pre-order), and an item with no matching loaded subchart
contributes no nested entries and is not an error (parser.go:44-67). -/
theorem deps_c8 (p : String → Except String ChartSchema)
    (ser : DependencyItem → String) (c : Chart) (schema : ChartSchema)
    (d1 d2 : DependencyItem) (sub : Chart) (r : Option (List String))
    (hy : chartYamlData c ≠ "")
    (hp : p (chartYamlData c) = .ok schema)
    (hdeps : schema.dependencies = [d1, d2])
    (h1 : ¬(d1.name = "" ∨ d1.version = "" ∨ d1.repository = ""))
    (h2 : ¬(d2.name = "" ∨ d2.version = "" ∨ d2.repository = ""))
    (hsub : c.deps = [sub])
    (hm1 : sub.name = d1.name ∧ sub.version = d1.version)
    (hm2 : ¬(sub.name = d2.name ∧ sub.version = d2.version))
    (hrec : getChartDependencies p ser sub = .ok r) :
    getChartDependencies p ser c =
      .ok (some (ser d1 :: (r.getD [] ++ [ser d2]))) := by
  have hfind1 : c.deps.find? (fun s0 =>
      s0.name == d1.name && s0.version == d1.version) = some sub := by
    rw [hsub]
    simp [List.find?, hm1.1, hm1.2]
  have hb2 : (sub.name == d2.name && sub.version == d2.version) = false := by
    rcases not_and_or.mp hm2 with h | h <;> simp [h]
  have hfind2 : c.deps.find? (fun s0 =>
      s0.name == d2.name && s0.version == d2.version) = none := by
    rw [hsub]
    simp [List.find?, hb2]
  have hnil : walkDepItems p ser c [] = .ok [] := by
    unfold walkDepItems
    rfl
  have hwalk2 : walkDepItems p ser c [d2] = .ok [ser d2] := by
    unfold walkDepItems
    rw [if_neg h2]
    split
    · rename_i sub0 hfind0
      rw [hfind2] at hfind0
      simp at hfind0
    · rw [hnil]
  have hwalk1 : walkDepItems p ser c [d1, d2] =
      .ok (ser d1 :: (r.getD [] ++ [ser d2])) := by
    unfold walkDepItems
    rw [if_neg h1]
    split
    · rename_i sub0 hfind0
      rw [hfind1] at hfind0
      injection hfind0 with hsubeq
      subst hsubeq
      dsimp only
      rw [hrec, hwalk2]
    · rename_i hfind0
      rw [hfind1] at hfind0
      simp at hfind0
  unfold getChartDependencies
  rw [if_neg hy, hp]
  dsimp only
  rw [if_neg (by simp [hdeps]), hdeps, hwalk1]

def c8Sub : Chart := Chart.mk "dep1" "1.2.3" [RawFile.mk "Chart.yaml" "subyaml"] []

def c8Parent : Chart :=
  Chart.mk "parent" "1.0.0" [RawFile.mk "Chart.yaml" "parentyaml"] [c8Sub]

def c8D1 : DependencyItem := DependencyItem.mk "dep1" "1.2.3" "https://a"

def c8D2 : DependencyItem := DependencyItem.mk "dep2" "4.5.6" "https://b"

/-- Concrete parser table for the `deps_c8` witness. -/
def c8ParseEx : String → Except String ChartSchema := fun s =>
  if s = "parentyaml" then .ok ⟨[c8D1, c8D2]⟩ else .ok ⟨[]⟩

/-- Witness for `deps_c8` at a concrete two-dependency chart with one
vendored subchart. -/
theorem deps_c8_witness :
    getChartDependencies c8ParseEx c4SerEx c8Parent =
      .ok (some (c4SerEx c8D1 ::
        ((Option.getD (none : Option (List String)) []) ++ [c4SerEx c8D2]))) :=
  deps_c8 c8ParseEx c4SerEx c8Parent ⟨[c8D1, c8D2]⟩ c8D1 c8D2 c8Sub none
    (by decide) rfl rfl (by decide) (by decide) rfl
    ⟨rfl, rfl⟩ (by decide)
    (by simp [getChartDependencies, chartYamlData, c8Sub, c8ParseEx,
      Chart.raw, List.find?])

end McpHelm
